import Mathlib

set_option maxRecDepth 8000

/-!
Verification of the core of `xcd.c` (a colorizing hexdump utility) against its
natural-language specification. The C source is shallowly embedded: byte
streams are `List Nat` (each entry < 256), the multi-file byte source is a
`List (List Nat)`, the dump loops are structural recursions on an explicit
fuel argument (the C loops consume at least one byte per iteration, so fuel
`stream.length + 1` is always enough), and the rendered output is modelled as
a list of events (one per output line or elision marker) or, for the line
renderers, as the list of output bytes.
-/

namespace Xcd

/-! ## The color index palette (xcd.c lines 84-341) -/

/-- The color index palette `colorset[]`, transcribed from xcd.c. 256 entries;
the final two colors are repeated to fill out the palette. -/
def colorset : List Nat :=
  [8, 11, 53, 202, 87, 9, 41, 217, 32, 222, 57, 214, 126, 191, 88, 148,
   94, 219, 22, 228, 121, 4, 3, 23, 30, 179, 14, 13, 195, 12, 225, 123,
   230, 27, 159, 10, 207, 165, 50, 227, 235, 200, 45, 82, 213, 197, 47, 255,
   20, 190, 93, 229, 236, 33, 220, 129, 49, 160, 39, 198, 118, 199, 48, 208,
   63, 154, 81, 52, 171, 194, 17, 224, 40, 206, 86, 237, 189, 203, 83, 19,
   254, 1, 221, 177, 2, 117, 18, 158, 212, 124, 183, 28, 122, 204, 34, 153,
   193, 69, 205, 84, 238, 218, 192, 99, 119, 135, 209, 75, 223, 85, 215, 56,
   155, 164, 58, 44, 161, 184, 26, 76, 105, 166, 120, 141, 210, 239, 111, 156,
   211, 147, 216, 157, 92, 42, 162, 38, 112, 163, 43, 172, 128, 29, 253, 54,
   178, 24, 55, 64, 188, 89, 35, 25, 130, 80, 125, 70, 170, 185, 240, 252,
   62, 77, 5, 167, 152, 6, 182, 37, 187, 91, 142, 116, 136, 176, 31, 186,
   90, 106, 127, 36, 100, 251, 59, 74, 134, 79, 149, 169, 241, 68, 113, 168,
   78, 98, 173, 7, 242, 146, 61, 151, 71, 131, 181, 60, 110, 150, 175, 65,
   115, 140, 180, 95, 104, 114, 174, 250, 243, 73, 133, 143, 67, 107, 132, 72,
   97, 137, 66, 96, 101, 249, 145, 248, 109, 139, 144, 247, 103, 108, 138, 246,
   245, 102, 245, 102, 245, 102, 245, 102, 245, 102, 245, 102, 245, 102, 245, 102]

/-! ## Glyph resolver (`getbyterepresentation`, xcd.c lines 517-560) -/

/-- `isprint` in the C locale: the printable ASCII range. -/
def isprint (ch : Nat) : Bool := 32 ≤ ch && ch ≤ 126

/-- `isgraph` in the C locale: printable ASCII except space. -/
def isgraph (ch : Nat) : Bool := 33 ≤ ch && ch ≤ 126

/-- `getbyterepresentation(ch)`: the display string (as a list of output
bytes) standing in for byte value `ch`, in Unicode mode (`uni = true`) or
plain ASCII mode. Transcribed from xcd.c lines 517-560. -/
def getbyterepresentation (uni : Bool) (ch : Nat) : List Nat :=
  if uni then
    if ch < 32 then [0xE2, 0x90, 0x80 ||| ch]
    else if ch = 32 then [0xE2, 0x90, 0xA0]
    else if ch < 127 then [ch]
    else if ch = 127 then [0xE2, 0x90, 0xA1]
    else if ch < 160 then [0xE2, 0x90, 0xA6]
    else if ch = 160 then [0xE2, 0x90, 0xA3]
    else [0xC0 ||| (ch >>> 6), 0x80 ||| (ch &&& 0x3F)]
  else
    if isprint ch then [ch] else [46]

/-- The two-byte UTF-8 encoding of a code point `c` with `0x80 ≤ c ≤ 0x7FF`,
written from the UTF-8 definition (for comparison with the code's byte
arithmetic): leading byte `0xC0 + c / 64`, continuation byte `0x80 + c % 64`. -/
def utf8encode2 (c : Nat) : List Nat := [192 + c / 64, 128 + c % 64]

/-- The control byte values named by the spec's injectivity claim:
0-31, 127, and 128-160. -/
def ctrlbytes : List Nat := List.range 32 ++ [127] ++ List.range' 128 33

/-! ## Palette assignment engine (xcd.c lines 394-402, 611-612, 674-677) -/

/-- The mutable state of the palette assignment engine: `palette[256]` (zero
meaning unassigned) and `nextcolorfromset`, the index of the first color in
`colorset` not yet assigned to a byte value. -/
structure PalState where
  palette : Nat → Nat
  nextcolorfromset : Nat

/-- One palette lookup as performed by the colorized renderers
(`if (!palette[ch]) palette[ch] = colorset[nextcolorfromset++];`,
xcd.c lines 674-677, 631-632, 682-683). The out-of-bounds read that
`colorset[nextcolorfromset]` would be is modelled by `getD`; the faithful
fallible version is `colorstepChecked`, and the safety theorem below proves
the two agree on every run from the initial state. -/
def colorstep (s : PalState) (ch : Nat) : PalState :=
  if s.palette ch = 0 then
    { palette := fun v => if v = ch then colorset.getD s.nextcolorfromset 0 else s.palette v,
      nextcolorfromset := s.nextcolorfromset + 1 }
  else s

/-- The same lookup, but returning `none` if the read
`colorset[nextcolorfromset]` would be out of bounds. -/
def colorstepChecked (s : PalState) (ch : Nat) : Option PalState :=
  if s.palette ch = 0 then
    match colorset.get? s.nextcolorfromset with
    | none => none
    | some c => some { palette := fun v => if v = ch then c else s.palette v,
                       nextcolorfromset := s.nextcolorfromset + 1 }
  else some s

/-- Run the palette engine over a sequence of looked-up byte values. -/
def processPal (s : PalState) (bs : List Nat) : PalState := bs.foldl colorstep s

/-- Fallible version of `processPal`. -/
def processPalChecked (s : PalState) : List Nat → Option PalState
  | [] => some s
  | b :: bs =>
    match colorstepChecked s b with
    | none => none
    | some s' => processPalChecked s' bs

/-- The engine state after `initoutput()` (xcd.c lines 611-612): every entry
unassigned except `palette[0] = colorset[0]`, and `nextcolorfromset = 1`. -/
def initPal : PalState :=
  { palette := fun v => if v = 0 then colorset.getD 0 0 else 0,
    nextcolorfromset := 1 }

/-- The color identifier actually printed when a colorized renderer renders
byte value `ch` in state `s`: `palette[ch]` after the conditional assignment. -/
def usedcolor (s : PalState) (ch : Nat) : Nat := (colorstep s ch).palette ch

/-- The distinct values of `bs`, in order of first occurrence, that are not
already in `seen`. These are exactly the values the engine assigns new
palette slots to when the assigned set is `seen`. -/
def firstOccs : List Nat → List Nat → List Nat
  | [], _ => []
  | b :: bs, seen =>
    if b ∈ seen then firstOccs bs seen else b :: firstOccs bs (b :: seen)

/-- Invariant tying an engine state to the list `seen` of byte values that
have been assigned colors: `seen` is duplicate-free, holds byte values only,
is exactly the set of assigned entries, and `nextcolorfromset` counts it. -/
def PalInv (s : PalState) (seen : List Nat) : Prop :=
  seen.Nodup ∧ (∀ v ∈ seen, v < 256) ∧
    (∀ v, s.palette v ≠ 0 ↔ v ∈ seen) ∧ s.nextcolorfromset = seen.length

/-! ## Render events and the dump loops (xcd.c lines 696-809) -/

/-- One unit of dump output: a rendered line of bytes at a stream position,
or the literal `*` elision marker line printed by `dumpzerolines`. -/
inductive Event where
  | line (buf : List Nat) (pos : Nat)
  | marker
deriving DecidableEq, Repr

/-- `dumpline(buf, count, pos)` (xcd.c lines 696-706): renders one line in
the configured format; a zero-length chunk produces no output. At the event
level all three formats emit the same single `line` event. -/
def dumpline (buf : List Nat) (pos : Nat) : List Event :=
  if buf.length = 0 then [] else [Event.line buf pos]

/-- `dumpzerolines(count, pos)` (xcd.c lines 711-723): display `count` lines
of zero bytes; if `count` is three or more, all but the first are elided
behind a `*` marker. `L` is the global `linesize`. -/
def dumpzerolines (L count pos : Nat) : List Event :=
  if count > 2 then
    dumpline (List.replicate L 0) pos ++ [Event.marker]
  else
    (List.range count).flatMap fun i => dumpline (List.replicate L 0) (pos + i * L)

/-- The bytes contained in the rendered lines of a list of events. -/
def renderedBytes : List Event → List Nat
  | [] => []
  | Event.line buf _ :: es => buf ++ renderedBytes es
  | Event.marker :: es => renderedBytes es

/-- The loop of `dumpfiles` (xcd.c lines 728-746) over an already
concatenated input stream. Each iteration reads
`min linesize (min maxinputlen remaining)` bytes and stops when that is
zero. `fuel` bounds the number of iterations; since every iteration consumes
at least one byte, `stream.length + 1` is always enough (see `dumpfiles`). -/
def dumpfilesLoop (L : Nat) : Nat → List Nat → Nat → Nat → List Event
  | 0, _, _, _ => []
  | fuel + 1, stream, maxlen, pos =>
    if min L (min maxlen stream.length) = 0 then []
    else
      dumpline (stream.take (min L (min maxlen stream.length))) pos ++
        dumpfilesLoop L fuel (stream.drop (min L (min maxlen stream.length)))
          (maxlen - min L (min maxlen stream.length))
          (pos + min L (min maxlen stream.length))

/-- `dumpfiles(s, pos)` on a stream with `maxinputlen = maxlen`. -/
def dumpfiles (L : Nat) (stream : List Nat) (maxlen pos : Nat) : List Event :=
  dumpfilesLoop L (stream.length + 1) stream maxlen pos

/-- The flush performed when the autoskip loop exits while holding zero
lines (xcd.c lines 789-792): all held lines but the last as a run, then the
final held line with its true (possibly shorter) length at its true
position. The last held chunk was all zeroes of length `lastheldsize`. -/
def autoskipflush (L linesheld lastheldsize holdpos pos : Nat) : List Event :=
  if linesheld ≠ 0 then
    dumpzerolines L (linesheld - 1) holdpos ++
      dumpline (List.replicate lastheldsize 0) (pos - lastheldsize)
  else []

/-- The loop of `dumpfileswithautoskip` (xcd.c lines 756-793). State
variables mirror the C locals: `linesheld` deferred all-zero lines,
`lastheldsize` the length of the most recently held line, `holdpos` the
position of the first held line. A chunk with a nonzero byte first flushes
the held run through `dumpzerolines` and is then rendered; an all-zero chunk
is held. On loop exit the held run is flushed by `autoskipflush`. -/
def dumpAutoskipLoop (L : Nat) :
    Nat → List Nat → Nat → Nat → Nat → Nat → Nat → List Event
  | 0, _, _, pos, linesheld, lastheldsize, holdpos =>
    autoskipflush L linesheld lastheldsize holdpos pos
  | fuel + 1, stream, maxlen, pos, linesheld, lastheldsize, holdpos =>
    if min L (min maxlen stream.length) = 0 then
      autoskipflush L linesheld lastheldsize holdpos pos
    else if (stream.take (min L (min maxlen stream.length))).any (· != 0) then
      (if linesheld ≠ 0 then dumpzerolines L linesheld holdpos else []) ++
        dumpline (stream.take (min L (min maxlen stream.length))) pos ++
        dumpAutoskipLoop L fuel (stream.drop (min L (min maxlen stream.length)))
          (maxlen - min L (min maxlen stream.length))
          (pos + min L (min maxlen stream.length)) 0 lastheldsize holdpos
    else
      dumpAutoskipLoop L fuel (stream.drop (min L (min maxlen stream.length)))
        (maxlen - min L (min maxlen stream.length))
        (pos + min L (min maxlen stream.length)) (linesheld + 1)
        (min L (min maxlen stream.length))
        (if linesheld = 0 then pos else holdpos)

/-- `dumpfileswithautoskip(s, pos)` on a stream with `maxinputlen = maxlen`. -/
def dumpfileswithautoskip (L : Nat) (stream : List Nat) (maxlen pos : Nat) : List Event :=
  dumpAutoskipLoop L (stream.length + 1) stream maxlen pos 0 0 0

/-- `dump(s)` (xcd.c lines 797-809): skip `startoffset` bytes (returning
with no output if the stream ends first), then run the configured loop from
position `startoffset`. -/
def dump (autoskip : Bool) (L S M : Nat) (stream : List Nat) : List Event :=
  if stream.length < S then []
  else if autoskip then dumpfileswithautoskip L (stream.drop S) M S
  else dumpfiles L (stream.drop S) M S

/-! ## The multi-input byte source (xcd.c lines 459-511) -/

/-- `nextbyte(s)` (xcd.c lines 499-511) on the list of not-yet-consumed
inputs: take the next byte of the current input, closing exhausted inputs
and opening the next one on demand; `none` is `EOF`, returned only when the
input list is exhausted. (Per-input I/O failures, which the program reports
and then treats as an empty input, are outside this model.) -/
def nextbyte : List (List Nat) → Option (Nat × List (List Nat))
  | [] => none
  | [] :: rest => nextbyte rest
  | (b :: bs) :: rest => some (b, bs :: rest)

/-- The inner chunk-filling loop of `dumpfiles` (xcd.c lines 734-740): read
up to `k` bytes through `nextbyte`, returning the chunk and the advanced
input state. -/
def readchunk : Nat → List (List Nat) → List Nat × List (List Nat)
  | 0, src => ([], src)
  | k + 1, src =>
    match nextbyte src with
    | none => ([], src)
    | some (b, src') => (b :: (readchunk k src').1, (readchunk k src').2)

/-- The loop of `dumpfiles` running directly over the input list, pulling
each chunk through `nextbyte`/`readchunk`. -/
def dumpfilesMultiLoop (L : Nat) : Nat → List (List Nat) → Nat → Nat → List Event
  | 0, _, _, _ => []
  | fuel + 1, src, maxlen, pos =>
    if (readchunk (min L maxlen) src).1.length = 0 then []
    else
      dumpline (readchunk (min L maxlen) src).1 pos ++
        dumpfilesMultiLoop L fuel (readchunk (min L maxlen) src).2
          (maxlen - (readchunk (min L maxlen) src).1.length)
          (pos + (readchunk (min L maxlen) src).1.length)

/-- The skip loop of `dump` (xcd.c lines 801-803) over the input list:
consume `k` bytes, or report `none` if the inputs end first. -/
def skipbytes : Nat → List (List Nat) → Option (List (List Nat))
  | 0, src => some src
  | k + 1, src =>
    match nextbyte src with
    | none => none
    | some (_, src') => skipbytes k src'

/-- `dump(s)` with autoskip disabled, running over the list of inputs:
skip `S` bytes (no output if the inputs end first), then dump with length
limit `M` from position `S`. -/
def dumpinputs (L S M : Nat) (srcs : List (List Nat)) : List Event :=
  match skipbytes S srcs with
  | none => []
  | some src' => dumpfilesMultiLoop L (src'.flatten.length + 1) src' M S

/-! ## Line renderers (xcd.c lines 621-687) -/

/-- One uppercase hexadecimal digit character (as an output byte), as
printed by `%X`. -/
def hexdigit (n : Nat) : Nat := if n < 10 then 48 + n else 55 + n

/-- The two characters `%02X` prints for a byte value. -/
def hexbyte (b : Nat) : List Nat := [hexdigit (b / 16 % 16), hexdigit (b % 16)]

/-- The eight characters `%08X` prints for a (31-bit) stream position. -/
def hex8 (pos : Nat) : List Nat :=
  (List.range 8).map fun i => hexdigit (pos / 16 ^ (7 - i) % 16)

/-- The hex-value column of one line: the loop of `renderlineuncolored`
(xcd.c lines 647-653) starting at byte index `i`, emitting a space before
every `groupsize`-th byte and two hex digits per byte. -/
def hexcells (g : Nat) : Nat → List Nat → List Nat
  | _, [] => []
  | i, b :: bs => (if i % g = 0 then [32] else []) ++ hexbyte b ++ hexcells g (i + 1) bs

/-- The number of group-separator spaces the hex column inserts for `n`
bytes starting at index `i`: one before each index divisible by `g`. -/
def groupspaces (g : Nat) : Nat → Nat → Nat
  | _, 0 => 0
  | i, n + 1 => (if i % g = 0 then 1 else 0) + groupspaces g (i + 1) n

/-- `hexwidth` (xcd.c line 869): the width of the full hex column,
`2 * linesize + (linesize + groupsize - 1) / groupsize`. -/
def hexwidth (L g : Nat) : Nat := 2 * L + (L + g - 1) / g

/-- The final value of the local `x` in `renderlineuncolored` and
`renderlinecolored`: it starts at `hexwidth - 2 * count` and is decremented
once per group-separator space, then passed to `printf("%*s", x, "")`
(which emits `|x|` spaces). -/
def padfield (L g n : Nat) : Int := (hexwidth L g : Int) - 2 * n - groupspaces g 0 n

/-- Everything `renderlineuncolored` prints before the glyph column: the
`%08X:` position label, the hex cells, the `%*s` padding and the two fixed
spaces of `"%*s  "`. -/
def linelead (L g : Nat) (buf : List Nat) (pos : Nat) : List Nat :=
  hex8 pos ++ 58 :: hexcells g 0 buf ++
    List.replicate (padfield L g buf.length).natAbs 32 ++ [32, 32]

/-- `renderlineuncolored(buf, count, pos)` (xcd.c lines 641-658) as the list
of bytes written to the output. -/
def renderlineuncolored (L g : Nat) (uni : Bool) (buf : List Nat) (pos : Nat) : List Nat :=
  linelead L g buf pos ++ buf.flatMap (getbyterepresentation uni) ++ [10]

/-- One item written by a colorized renderer: a visible output byte, a
`tiparm(setaf, c)` color-set sequence, or the `sgr0` reset sequence.
Control sequences occupy no display columns. -/
inductive OutItem where
  | chr (b : Nat)
  | setcolor (c : Nat)
  | reset
deriving DecidableEq, Repr

/-- The visible bytes of a colorized output, with the zero-width control
sequences removed. -/
def visible (l : List OutItem) : List Nat :=
  l.filterMap fun it => match it with
    | OutItem.chr b => some b
    | _ => none

/-- The hex-column loop of `renderlinecolored` (xcd.c lines 669-678): for
each byte, a group-separator space when due, then the byte's color (assigned
on first sight through `colorstep`) and its two hex digits. -/
def renderhexcolored (g : Nat) : Nat → List Nat → PalState → List OutItem
  | _, [], _ => []
  | i, b :: bs, s =>
    (if i % g = 0 then [OutItem.chr 32] else []) ++
      OutItem.setcolor ((colorstep s b).palette b) ::
        (hexbyte b).map OutItem.chr ++ renderhexcolored g (i + 1) bs (colorstep s b)

/-- The glyph-column loop of `renderlinecolored` (xcd.c lines 680-685): each
byte's color (the conditional assignment is repeated here) then its glyph. -/
def renderglyphscolored (uni : Bool) : List Nat → PalState → List OutItem
  | [], _ => []
  | b :: bs, s =>
    OutItem.setcolor ((colorstep s b).palette b) ::
      (getbyterepresentation uni b).map OutItem.chr ++
        renderglyphscolored uni bs (colorstep s b)

/-- `renderlinecolored(buf, count, pos)` (xcd.c lines 663-687): the emitted
items and the palette state after both loops. Mirrors
`printf("%s%08X:", sgr0, pos)`, the hex loop, `printf("%s%*s  ", sgr0, x, "")`,
the glyph loop and the final `printf("%s\n", sgr0)`. -/
def renderlinecolored (L g : Nat) (uni : Bool) (buf : List Nat) (pos : Nat)
    (s : PalState) : List OutItem × PalState :=
  (OutItem.reset :: (hex8 pos).map OutItem.chr ++ OutItem.chr 58 ::
      renderhexcolored g 0 buf s ++
      OutItem.reset :: List.replicate (padfield L g buf.length).natAbs (OutItem.chr 32) ++
      OutItem.chr 32 :: OutItem.chr 32 ::
      renderglyphscolored uni buf (processPal s buf) ++ [OutItem.reset, OutItem.chr 10],
   processPal (processPal s buf) buf)

/-- `renderbytescolored(buf, count)` (xcd.c lines 621-636): raw mode. A
non-graphic byte is emitted unchanged and uncolored; a graphic byte gets its
assigned color and its glyph; a single reset ends the chunk. -/
def renderbytescolored (uni : Bool) : List Nat → PalState → List OutItem × PalState
  | [], s => ([OutItem.reset], s)
  | b :: bs, s =>
    if isgraph b then
      (OutItem.setcolor ((colorstep s b).palette b) ::
          (getbyterepresentation uni b).map OutItem.chr ++
          (renderbytescolored uni bs (colorstep s b)).1,
       (renderbytescolored uni bs (colorstep s b)).2)
    else
      (OutItem.chr b :: (renderbytescolored uni bs s).1,
       (renderbytescolored uni bs s).2)

/-! ## Facts about the palette table -/

/-- The palette has exactly 256 entries. -/
lemma colorset_length : colorset.length = 256 := by decide

/-- An `all`-scan for nonzero entries gives nonzero values index-wise. -/
lemma all_ne_zero_getD {l : List Nat} (h : l.all (fun x => x != 0) = true) :
    ∀ i, i < l.length → l.getD i 0 ≠ 0 := by
  induction l with
  | nil =>
    intro i hi
    rw [List.length_nil] at hi
    omega
  | cons a l ih =>
    intro i hi
    rw [List.all_cons, Bool.and_eq_true] at h
    cases i with
    | zero =>
      rw [List.getD_cons_zero]
      simpa using h.1
    | succ j =>
      rw [List.getD_cons_succ]
      exact ih h.2 j (by rw [List.length_cons] at hi; omega)

/-- In-bounds `get?` returns the `getD` value, for any list. -/
lemma get?_eq_getD_of_lt {l : List Nat} :
    ∀ i, i < l.length → l.get? i = some (l.getD i 0) := by
  induction l with
  | nil =>
    intro i hi
    rw [List.length_nil] at hi
    omega
  | cons a l ih =>
    intro i hi
    cases i with
    | zero =>
      rw [List.getD_cons_zero]
      rfl
    | succ j =>
      show l.get? j = some ((a :: l).getD (j + 1) 0)
      rw [List.getD_cons_succ]
      exact ih j (by rw [List.length_cons] at hi; omega)

/-- Every palette entry is nonzero, so an assigned `palette[]` entry is
distinguishable from the "unassigned" sentinel 0. -/
lemma colorset_getD_ne_zero : ∀ i, i < 256 → colorset.getD i 0 ≠ 0 := by
  intro i hi
  exact all_ne_zero_getD (by decide) i (by rw [colorset_length]; exact hi)

/-- In-bounds indexing of the palette table succeeds. -/
lemma colorset_get?_eq : ∀ i, i < 256 → colorset.get? i = some (colorset.getD i 0) := by
  intro i hi
  exact get?_eq_getD_of_lt i (by rw [colorset_length]; exact hi)

/-- A duplicate-free list of byte values has at most 256 elements. -/
lemma nodup_length_le {l : List Nat} (hnd : l.Nodup) (hlt : ∀ v ∈ l, v < 256) :
    l.length ≤ 256 := by
  have h1 : l.toFinset.card = l.length := List.toFinset_card_of_nodup hnd
  have h2 : l.toFinset ⊆ Finset.range 256 := by
    intro x hx
    exact Finset.mem_range.mpr (hlt x (List.mem_toFinset.mp hx))
  have h3 := Finset.card_le_card h2
  rw [Finset.card_range] at h3
  omega

/-! ## Palette engine invariants -/

/-- The initial state satisfies the invariant with assigned set `[0]`. -/
lemma initPal_inv : PalInv initPal [0] := by
  refine ⟨by decide, by decide, ?_, rfl⟩
  intro v
  by_cases h : v = 0
  · subst h
    simp only [initPal, if_pos rfl]
    exact ⟨fun _ => List.mem_singleton.mpr rfl, fun _ => by decide⟩
  · simp [initPal, h]

/-- `PalInv` only depends on the assigned list up to permutation. -/
lemma palinv_perm {s : PalState} {l l' : List Nat} (h : PalInv s l) (hp : l.Perm l') :
    PalInv s l' := by
  obtain ⟨hnd, hlt, hiff, hn⟩ := h
  exact ⟨hp.nodup_iff.mp hnd, fun v hv => hlt v (hp.mem_iff.mpr hv),
    fun v => (hiff v).trans (hp.mem_iff), hn.trans hp.length_eq⟩

/-- Processing more bytes never changes an already assigned entry. -/
lemma processPal_stable : ∀ (bs : List Nat) (s : PalState) (v : Nat),
    s.palette v ≠ 0 → (processPal s bs).palette v = s.palette v := by
  intro bs
  induction bs with
  | nil => intro s v _; rfl
  | cons b bs ih =>
    intro s v hv
    have hstep : (colorstep s b).palette v = s.palette v := by
      unfold colorstep
      by_cases h0 : s.palette b = 0
      · simp only [h0, if_pos]
        by_cases hvb : v = b
        · subst hvb; exact absurd h0 hv
        · simp [hvb]
      · simp [h0]
    show (processPal (colorstep s b) bs).palette v = s.palette v
    rw [ih (colorstep s b) v (by rw [hstep]; exact hv), hstep]

/-- A value produced by `firstOccs bs seen` is not in `seen`. -/
lemma firstOccs_not_mem_seen : ∀ (bs seen : List Nat) (v : Nat),
    v ∈ firstOccs bs seen → v ∉ seen := by
  intro bs
  induction bs with
  | nil => intro seen v h; simp [firstOccs] at h
  | cons b bs ih =>
    intro seen v h
    by_cases hb : b ∈ seen
    · rw [firstOccs, if_pos hb] at h
      exact ih seen v h
    · rw [firstOccs, if_neg hb] at h
      rcases List.mem_cons.mp h with h | h
      · subst h; exact hb
      · intro hv
        exact ih (b :: seen) v h (List.mem_cons_of_mem b hv)

/-- A value produced by `firstOccs bs seen` occurs in `bs`. -/
lemma firstOccs_mem : ∀ (bs seen : List Nat) (v : Nat),
    v ∈ firstOccs bs seen → v ∈ bs := by
  intro bs
  induction bs with
  | nil => intro seen v h; simp [firstOccs] at h
  | cons b bs ih =>
    intro seen v h
    by_cases hb : b ∈ seen
    · rw [firstOccs, if_pos hb] at h
      exact List.mem_cons_of_mem b (ih seen v h)
    · rw [firstOccs, if_neg hb] at h
      rcases List.mem_cons.mp h with h | h
      · subst h; exact List.mem_cons_self _ _
      · exact List.mem_cons_of_mem b (ih (b :: seen) v h)

/-- `firstOccs` lists pairwise distinct values. -/
lemma firstOccs_nodup : ∀ (bs seen : List Nat), (firstOccs bs seen).Nodup := by
  intro bs
  induction bs with
  | nil => intro seen; simp [firstOccs]
  | cons b bs ih =>
    intro seen
    by_cases hb : b ∈ seen
    · rw [firstOccs, if_pos hb]; exact ih seen
    · rw [firstOccs, if_neg hb]
      refine List.nodup_cons.mpr ⟨?_, ih (b :: seen)⟩
      intro hmem
      exact firstOccs_not_mem_seen bs (b :: seen) b hmem (List.mem_cons_self _ _)

/-- The number of assigned values never reaches 256 while an unassigned byte
value exists. -/
lemma palinv_seen_lt {s : PalState} {seen : List Nat} {b : Nat}
    (h : PalInv s seen) (hb : b < 256) (hnb : b ∉ seen) : seen.length < 256 := by
  obtain ⟨hnd, hlt, _, _⟩ := h
  have : (b :: seen).length ≤ 256 := by
    refine nodup_length_le (List.nodup_cons.mpr ⟨hnb, hnd⟩) ?_
    intro v hv
    rcases List.mem_cons.mp hv with h | h
    · subst h; exact hb
    · exact hlt v h
  rw [List.length_cons] at this
  omega

/-- Master lemma for the palette engine: running it over any sequence of
byte-value lookups preserves the invariant with the newly observed values
added, assigns the `i`-th new value the `(nextcolorfromset + i)`-th palette
slot, and never reads `colorset` out of bounds (the checked and unchecked
runs agree). -/
lemma processPal_spec : ∀ (bs : List Nat) (s : PalState) (seen : List Nat),
    (∀ b ∈ bs, b < 256) → PalInv s seen →
    PalInv (processPal s bs) (firstOccs bs seen ++ seen) ∧
    (∀ i, i < (firstOccs bs seen).length →
      (processPal s bs).palette ((firstOccs bs seen).getD i 0)
        = colorset.getD (s.nextcolorfromset + i) 0) ∧
    processPalChecked s bs = some (processPal s bs) := by
  intro bs
  induction bs with
  | nil =>
    intro s seen _ hInv
    refine ⟨by simpa [firstOccs] using hInv, ?_, rfl⟩
    intro i h
    simp [firstOccs] at h
  | cons b bs ih =>
    intro s seen hlt hInv
    have hb : b < 256 := hlt b (List.mem_cons_self _ _)
    have hlt' : ∀ x ∈ bs, x < 256 := fun x hx => hlt x (List.mem_cons_of_mem b hx)
    obtain ⟨hnd, hmlt, hiff, hnext⟩ := hInv
    by_cases hmem : b ∈ seen
    · have hpb : s.palette b ≠ 0 := (hiff b).mpr hmem
      have hstep : colorstep s b = s := by
        unfold colorstep; simp [hpb]
      have hrw : processPal s (b :: bs) = processPal s bs := by
        show processPal (colorstep s b) bs = processPal s bs
        rw [hstep]
      have hfo : firstOccs (b :: bs) seen = firstOccs bs seen := by
        rw [firstOccs, if_pos hmem]
      have hchk : processPalChecked s (b :: bs) = processPalChecked s bs := by
        show (match colorstepChecked s b with
              | none => none
              | some s' => processPalChecked s' bs) = processPalChecked s bs
        unfold colorstepChecked
        simp [hpb]
      obtain ⟨ih1, ih2, ih3⟩ := ih s seen hlt' ⟨hnd, hmlt, hiff, hnext⟩
      rw [hrw, hfo, hchk]
      exact ⟨ih1, ih2, ih3⟩
    · have hpb : s.palette b = 0 := by
        by_contra h
        exact hmem ((hiff b).mp h)
      have hlen : seen.length < 256 := palinv_seen_lt ⟨hnd, hmlt, hiff, hnext⟩ hb hmem
      have hnlt : s.nextcolorfromset < 256 := by rw [hnext]; exact hlen
      have hc : colorset.getD s.nextcolorfromset 0 ≠ 0 := colorset_getD_ne_zero _ hnlt
      have hstep : colorstep s b =
          { palette := fun v => if v = b then colorset.getD s.nextcolorfromset 0
                                else s.palette v,
            nextcolorfromset := s.nextcolorfromset + 1 } := by
        unfold colorstep; simp [hpb]
      have hInv' : PalInv (colorstep s b) (b :: seen) := by
        rw [hstep]
        refine ⟨List.nodup_cons.mpr ⟨hmem, hnd⟩, ?_, ?_, by simp [hnext]⟩
        · intro v hv
          rcases List.mem_cons.mp hv with h | h
          · subst h; exact hb
          · exact hmlt v h
        · intro v
          by_cases hvb : v = b
          · subst hvb
            show (if v = v then colorset.getD s.nextcolorfromset 0 else s.palette v) ≠ 0
              ↔ v ∈ v :: seen
            rw [if_pos rfl]
            exact ⟨fun _ => List.mem_cons_self _ _, fun _ => hc⟩
          · show (if v = b then colorset.getD s.nextcolorfromset 0 else s.palette v) ≠ 0
              ↔ v ∈ b :: seen
            rw [if_neg hvb, List.mem_cons]
            simp [hvb, hiff v]
      obtain ⟨ih1, ih2, ih3⟩ := ih (colorstep s b) (b :: seen) hlt' hInv'
      have hfo : firstOccs (b :: bs) seen = b :: firstOccs bs (b :: seen) := by
        rw [firstOccs, if_neg hmem]
      have hrw : processPal s (b :: bs) = processPal (colorstep s b) bs := rfl
      refine ⟨?_, ?_, ?_⟩
      · rw [hfo, hrw]
        exact palinv_perm ih1 List.perm_middle
      · intro i hi
        rw [hfo] at hi ⊢
        cases i with
        | zero =>
          have hpalb : (colorstep s b).palette b ≠ 0 := by
            rw [hstep]
            show (if b = b then colorset.getD s.nextcolorfromset 0 else s.palette b) ≠ 0
            rw [if_pos rfl]
            exact hc
          rw [List.getD_cons_zero, hrw,
            processPal_stable bs (colorstep s b) b hpalb, hstep]
          show (if b = b then colorset.getD s.nextcolorfromset 0 else s.palette b)
            = colorset.getD (s.nextcolorfromset + 0) 0
          rw [if_pos rfl, Nat.add_zero]
        | succ j =>
          have hj : j < (firstOccs bs (b :: seen)).length := by
            rw [List.length_cons] at hi
            omega
          rw [List.getD_cons_succ, hrw, ih2 j hj, hstep]
          show colorset.getD (s.nextcolorfromset + 1 + j) 0
            = colorset.getD (s.nextcolorfromset + (j + 1)) 0
          congr 1
          omega
      · show (match colorstepChecked s b with
              | none => none
              | some s' => processPalChecked s' bs) = some (processPal s (b :: bs))
        have hchk : colorstepChecked s b = some (colorstep s b) := by
          unfold colorstepChecked
          rw [if_pos hpb, colorset_get?_eq _ hnlt, hstep]
        rw [hchk, hrw]
        exact ih3

/-- A lookup of an already assigned byte value leaves the state unchanged. -/
lemma colorstep_of_assigned {s : PalState} {v : Nat} (h : s.palette v ≠ 0) :
    colorstep s v = s := by
  unfold colorstep; simp [h]

/-! ## C5, C6, C9: the palette assignment engine -/

/-- C5: within one invocation, once a color has been assigned to a byte
value it is never changed or evicted — the color used when `v` is rendered
after any later prefix `bs ++ v :: cs` of lookups equals the (nonzero) color
used at its first render after `bs`, no matter what `cs` contains. -/
theorem palette_stable (bs cs : List Nat) (v : Nat) (hv : v < 256)
    (hbs : ∀ b ∈ bs, b < 256) :
    usedcolor (processPal initPal (bs ++ v :: cs)) v
      = usedcolor (processPal initPal bs) v ∧
    usedcolor (processPal initPal bs) v ≠ 0 := by
  obtain ⟨⟨hnd, hbd, hiff, hlen⟩, -, -⟩ :=
    processPal_spec bs initPal [0] hbs initPal_inv
  have hne : (colorstep (processPal initPal bs) v).palette v ≠ 0 := by
    by_cases h0 : (processPal initPal bs).palette v = 0
    · have hvmem : v ∉ firstOccs bs [0] ++ [0] := fun hm => ((hiff v).mpr hm) h0
      have hl : (firstOccs bs [0] ++ [0]).length < 256 :=
        palinv_seen_lt ⟨hnd, hbd, hiff, hlen⟩ hv hvmem
      have hnlt : (processPal initPal bs).nextcolorfromset < 256 := by
        rw [hlen]; exact hl
      unfold colorstep
      rw [if_pos h0]
      show (if v = v then colorset.getD (processPal initPal bs).nextcolorfromset 0
            else (processPal initPal bs).palette v) ≠ 0
      rw [if_pos rfl]
      exact colorset_getD_ne_zero _ hnlt
    · rw [colorstep_of_assigned h0]
      exact h0
  have happ : processPal initPal (bs ++ v :: cs)
      = processPal (colorstep (processPal initPal bs) v) cs := by
    unfold processPal
    rw [List.foldl_append]
    rfl
  have hpres := processPal_stable cs (colorstep (processPal initPal bs) v) v hne
  have hlater : (processPal initPal (bs ++ v :: cs)).palette v ≠ 0 := by
    rw [happ, hpres]; exact hne
  refine ⟨?_, hne⟩
  show usedcolor (processPal initPal (bs ++ v :: cs)) v
    = (colorstep (processPal initPal bs) v).palette v
  unfold usedcolor
  rw [colorstep_of_assigned hlater, happ, hpres]

/-- Witness for `palette_stable` at `bs = [66]`, `v = 65`, `cs = [67, 65]`. -/
theorem palette_stable_witness :
    ((65 : Nat) < 256 ∧ ∀ b ∈ [(66 : Nat)], b < 256) ∧
    (usedcolor (processPal initPal ([66] ++ 65 :: [67, 65])) 65
       = usedcolor (processPal initPal [66]) 65 ∧
     usedcolor (processPal initPal [66]) 65 ≠ 0) :=
  ⟨⟨by decide, by decide⟩, palette_stable [66] [67, 65] 65 (by decide) (by decide)⟩

/-- C6 (counterexample to the claim as stated): on the stream `[1]`, the
first distinct colorizable byte value observed is `1`, yet the color it
receives is the second palette slot `colorset[1]`, not the first slot
`colorset[0]` (which `initoutput` pre-assigned to byte value 0). -/
theorem palette_first_slot_counterexample :
    usedcolor initPal 1 = colorset.getD 1 0 ∧
    usedcolor initPal 1 ≠ colorset.getD 0 0 := by decide

/-- C6 (amended): byte value 0 holds the first palette slot from
initialization on, and the engine allocates the remaining slots strictly in
first-observation order: the `i`-th distinct byte value other than 0
observed in the lookup stream receives palette slot `1 + i`. -/
theorem palette_first_observation_order (bs : List Nat)
    (hbs : ∀ b ∈ bs, b < 256) :
    (processPal initPal bs).palette 0 = colorset.getD 0 0 ∧
    ∀ i, i < (firstOccs bs [0]).length →
      (processPal initPal bs).palette ((firstOccs bs [0]).getD i 0)
        = colorset.getD (1 + i) 0 := by
  obtain ⟨-, hidx, -⟩ := processPal_spec bs initPal [0] hbs initPal_inv
  constructor
  · have h0 : initPal.palette 0 ≠ 0 := by decide
    rw [processPal_stable bs initPal 0 h0]
    rfl
  · intro i hi
    exact hidx i hi

/-- Witness for `palette_first_observation_order` on the stream
`[7, 7, 9]`, whose distinct nonzero values in observation order are
`[7, 9]`. -/
theorem palette_first_observation_order_witness :
    (∀ b ∈ [(7 : Nat), 7, 9], b < 256) ∧
    ((processPal initPal [7, 7, 9]).palette 0 = colorset.getD 0 0 ∧
     ∀ i, i < (firstOccs [7, 7, 9] [0]).length →
       (processPal initPal [7, 7, 9]).palette ((firstOccs [7, 7, 9] [0]).getD i 0)
         = colorset.getD (1 + i) 0) :=
  ⟨by decide, palette_first_observation_order [7, 7, 9] (by decide)⟩

/-- C9: palette assignment never faults — since an assigned entry is
nonzero and never reassigned, at most 256 assignments are made,
`nextcolorfromset` never exceeds 256, and every `colorset` read is in
bounds: the faithful fallible engine agrees with the total model on every
byte stream. -/
theorem palette_assignment_safe (bs : List Nat) (hbs : ∀ b ∈ bs, b < 256) :
    processPalChecked initPal bs = some (processPal initPal bs) ∧
    (processPal initPal bs).nextcolorfromset ≤ 256 := by
  obtain ⟨⟨hnd, hbd, hiff, hlen⟩, -, hchk⟩ :=
    processPal_spec bs initPal [0] hbs initPal_inv
  refine ⟨hchk, ?_⟩
  rw [hlen]
  exact nodup_length_le hnd hbd

/-- Witness for `palette_assignment_safe` on the stream `[0, 1, 255]`. -/
theorem palette_assignment_safe_witness :
    (∀ b ∈ [(0 : Nat), 1, 255], b < 256) ∧
    (processPalChecked initPal [0, 1, 255] = some (processPal initPal [0, 1, 255]) ∧
     (processPal initPal [0, 1, 255]).nextcolorfromset ≤ 256) :=
  ⟨by decide, palette_assignment_safe [0, 1, 255] (by decide)⟩

/-! ## C8, C10: the glyph resolver -/

/-- Branch of `getbyterepresentation` for the C0 control characters. -/
lemma glyph_ctrl (a : Nat) (h : a < 32) :
    getbyterepresentation true a = [0xE2, 0x90, 0x80 ||| a] := by
  unfold getbyterepresentation
  rw [if_pos rfl, if_pos h]

/-- Branch of `getbyterepresentation` for `DEL`. -/
lemma glyph_del : getbyterepresentation true 127 = [0xE2, 0x90, 0xA1] := by decide

/-- Branch of `getbyterepresentation` for the C1 control range: all of
128-159 share the one substitute glyph. -/
lemma glyph_c1 (a : Nat) (h1 : 128 ≤ a) (h2 : a ≤ 159) :
    getbyterepresentation true a = [0xE2, 0x90, 0xA6] := by
  unfold getbyterepresentation
  rw [if_pos rfl, if_neg (by omega : ¬ a < 32), if_neg (by omega : ¬ a = 32),
    if_neg (by omega : ¬ a < 127), if_neg (by omega : ¬ a = 127),
    if_pos (by omega : a < 160)]

/-- Branch of `getbyterepresentation` for the no-break space. -/
lemma glyph_nbsp : getbyterepresentation true 160 = [0xE2, 0x90, 0xA3] := by decide

/-- Branch of `getbyterepresentation` for the upper (Latin-1) range. -/
lemma glyph_hi (ch : Nat) (h : 161 ≤ ch) :
    getbyterepresentation true ch
      = [0xC0 ||| (ch >>> 6), 0x80 ||| (ch &&& 0x3F)] := by
  unfold getbyterepresentation
  rw [if_pos rfl, if_neg (by omega : ¬ ch < 32), if_neg (by omega : ¬ ch = 32),
    if_neg (by omega : ¬ ch < 127), if_neg (by omega : ¬ ch = 127),
    if_neg (by omega : ¬ ch < 160), if_neg (by omega : ¬ ch = 160)]

/-- Small bytes OR-ed onto the continuation-byte marker just add. -/
lemma or128_eq : ∀ a, a < 32 → 128 ||| a = 128 + a := by decide

/-- The leading-byte marker absorbs a two-bit payload additively. -/
lemma orC0_eq : ∀ d, d ≤ 3 → 192 ||| d = 192 + d := by decide

/-- The continuation-byte marker absorbs a six-bit payload additively. -/
lemma or80_eq : ∀ m, m ≤ 63 → 128 ||| m = 128 + m := by decide

/-- The claimed control set splits into the four glyph branches. -/
lemma ctrlbytes_cases : ∀ a ∈ ctrlbytes,
    a < 32 ∨ a = 127 ∨ (128 ≤ a ∧ a ≤ 159) ∨ a = 160 := by decide

/-- C8 (counterexample to the claim as stated): the extended-mode mapping is
not injective on the control byte values — 128 and 129 are distinct members
of the claimed set but share the single C1-substitute glyph `E2 90 A6`. -/
theorem glyph_injective_counterexample :
    (128 : Nat) ∈ ctrlbytes ∧ (129 : Nat) ∈ ctrlbytes ∧ (128 : Nat) ≠ 129 ∧
    getbyterepresentation true 128 = getbyterepresentation true 129 := by decide

/-- C8 (amended): the glyph resolver is total — every byte value 0-255 maps
to exactly one glyph of 1-3 bytes in each mode — and on the control byte
values {0-31, 127, 128-160} the extended-mode mapping is injective except
that all of 128-159 share one common glyph. -/
theorem glyph_total_inj_amended :
    (∀ uni : Bool, ∀ ch, ch < 256 →
      1 ≤ (getbyterepresentation uni ch).length ∧
        (getbyterepresentation uni ch).length ≤ 3) ∧
    (∀ a ∈ ctrlbytes, ∀ b ∈ ctrlbytes,
      getbyterepresentation true a = getbyterepresentation true b →
      a = b ∨ (128 ≤ a ∧ a ≤ 159 ∧ 128 ≤ b ∧ b ≤ 159)) := by
  refine ⟨by decide, ?_⟩
  intro a ha b hb heq
  rcases ctrlbytes_cases a ha with hA | hA | hA | hA <;>
    rcases ctrlbytes_cases b hb with hB | hB | hB | hB
  · rw [glyph_ctrl a hA, glyph_ctrl b hB] at heq
    simp only [List.cons.injEq, and_true] at heq
    rw [or128_eq a hA, or128_eq b hB] at heq
    left
    omega
  · rw [hB, glyph_ctrl a hA, glyph_del] at heq
    simp only [List.cons.injEq, and_true] at heq
    rw [or128_eq a hA] at heq
    omega
  · rw [glyph_ctrl a hA, glyph_c1 b hB.1 hB.2] at heq
    simp only [List.cons.injEq, and_true] at heq
    rw [or128_eq a hA] at heq
    omega
  · rw [hB, glyph_ctrl a hA, glyph_nbsp] at heq
    simp only [List.cons.injEq, and_true] at heq
    rw [or128_eq a hA] at heq
    omega
  · rw [hA, glyph_del, glyph_ctrl b hB] at heq
    simp only [List.cons.injEq, and_true] at heq
    rw [or128_eq b hB] at heq
    omega
  · exact Or.inl (hA.trans hB.symm)
  · rw [hA, glyph_del, glyph_c1 b hB.1 hB.2] at heq
    simp at heq
  · rw [hA, hB, glyph_del, glyph_nbsp] at heq
    simp at heq
  · rw [glyph_c1 a hA.1 hA.2, glyph_ctrl b hB] at heq
    simp only [List.cons.injEq, and_true] at heq
    rw [or128_eq b hB] at heq
    omega
  · rw [hB, glyph_c1 a hA.1 hA.2, glyph_del] at heq
    simp at heq
  · exact Or.inr ⟨hA.1, hA.2, hB.1, hB.2⟩
  · rw [hB, glyph_c1 a hA.1 hA.2, glyph_nbsp] at heq
    simp at heq
  · rw [hA, glyph_nbsp, glyph_ctrl b hB] at heq
    simp only [List.cons.injEq, and_true] at heq
    rw [or128_eq b hB] at heq
    omega
  · rw [hA, hB, glyph_nbsp, glyph_del] at heq
    simp at heq
  · rw [hA, glyph_nbsp, glyph_c1 b hB.1 hB.2] at heq
    simp at heq
  · exact Or.inl (hA.trans hB.symm)

/-- Witness for `glyph_total_inj_amended` at `ch = 0`, `a = 31`, `b = 31`. -/
theorem glyph_total_inj_amended_witness :
    ((0 : Nat) < 256 ∧
      (1 ≤ (getbyterepresentation false 0).length ∧
        (getbyterepresentation false 0).length ≤ 3)) ∧
    ((31 : Nat) ∈ ctrlbytes ∧
      ((31 : Nat) = 31 ∨ (128 ≤ 31 ∧ 31 ≤ 159 ∧ 128 ≤ (31 : Nat) ∧ 31 ≤ 159))) :=
  ⟨⟨by decide, glyph_total_inj_amended.1 false 0 (by decide)⟩,
   ⟨by decide, glyph_total_inj_amended.2 31 (by decide) 31 (by decide) rfl⟩⟩

/-- C10: in extended mode every byte value 161-255 maps to exactly the
two-byte UTF-8 encoding of the code point with its Latin-1 value, and the
mapping is injective on that range. -/
theorem latin1_utf8 :
    ∀ ch, ch ≤ 255 → 161 ≤ ch →
      getbyterepresentation true ch = utf8encode2 ch ∧
      (∀ b, b ≤ 255 → 161 ≤ b →
        getbyterepresentation true b = getbyterepresentation true ch → b = ch) := by
  have hshift : ∀ x : Nat, x >>> 6 = x / 64 := by
    intro x
    have h := Nat.shiftRight_eq_div_pow x 6
    norm_num at h
    exact h
  have hland : ∀ x : Nat, x &&& 63 = x % 64 := by
    intro x
    have h := Nat.and_pow_two_sub_one_eq_mod x 6
    norm_num at h
    exact h
  have henc : ∀ x, x ≤ 255 → 161 ≤ x →
      getbyterepresentation true x = utf8encode2 x := by
    intro x hx1 hx2
    rw [glyph_hi x hx2]
    unfold utf8encode2
    rw [hshift x, hland x, orC0_eq (x / 64) (by omega), or80_eq (x % 64) (by omega)]
  intro ch h1 h2
  refine ⟨henc ch h1 h2, ?_⟩
  intro b hb1 hb2 heq
  rw [henc b hb1 hb2, henc ch h1 h2] at heq
  unfold utf8encode2 at heq
  simp only [List.cons.injEq, and_true] at heq
  omega

/-- Witness for `latin1_utf8` at `ch = 233`. -/
theorem latin1_utf8_witness :
    ((233 : Nat) ≤ 255 ∧ (161 : Nat) ≤ 233) ∧
    (getbyterepresentation true 233 = utf8encode2 233 ∧
     (∀ b, b ≤ 255 → 161 ≤ b →
       getbyterepresentation true b = getbyterepresentation true 233 → b = 233)) :=
  ⟨⟨by decide, by decide⟩, latin1_utf8 233 (by decide) (by decide)⟩

/-! ## C7 counterexample: the inter-column padding width -/

/-- C7 (counterexample to the claim as stated): for a full line
(`line_width = 16`, `group_size = 2`, `n = 16` bytes) the padding emitted
between the hex bytes and the glyph column is 0 spaces from `%*s` plus the
two fixed spaces — not `hex_column_width − 2×n = 8`: the `x` passed to
`printf("%*s  ", x, "")` has already been decremented once per
group-separator space. -/
theorem padding_width_counterexample :
    (padfield 16 2 16).natAbs ≠ hexwidth 16 2 - 2 * 16 ∧
    (padfield 16 2 16).natAbs + 2 ≠ hexwidth 16 2 - 2 * 16 := by decide

/-! ## The autoskip loop: step lemmas -/

/-- Unfolding the autoskip loop when the next chunk would be empty. -/
lemma autoskip_step_stop (L fuel : Nat) (stream : List Nat)
    (maxlen pos h ls hp : Nat)
    (hn : min L (min maxlen stream.length) = 0) :
    dumpAutoskipLoop L (fuel + 1) stream maxlen pos h ls hp
      = autoskipflush L h ls hp pos := by
  simp only [dumpAutoskipLoop, hn, if_pos]

/-- Unfolding the autoskip loop on a chunk that contains a nonzero byte. -/
lemma autoskip_step_nonzero (L fuel : Nat) (stream : List Nat)
    (maxlen pos h ls hp n : Nat)
    (hn : min L (min maxlen stream.length) = n) (hne : n ≠ 0)
    (hnz : (stream.take n).any (· != 0) = true) :
    dumpAutoskipLoop L (fuel + 1) stream maxlen pos h ls hp
      = (if h ≠ 0 then dumpzerolines L h hp else []) ++
          dumpline (stream.take n) pos ++
          dumpAutoskipLoop L fuel (stream.drop n) (maxlen - n) (pos + n) 0 ls hp := by
  simp only [dumpAutoskipLoop, hn]
  rw [if_neg hne, hnz]
  simp

/-- Unfolding the autoskip loop on an all-zero chunk. -/
lemma autoskip_step_zero (L fuel : Nat) (stream : List Nat)
    (maxlen pos h ls hp n : Nat)
    (hn : min L (min maxlen stream.length) = n) (hne : n ≠ 0)
    (hz : (stream.take n).any (· != 0) = false) :
    dumpAutoskipLoop L (fuel + 1) stream maxlen pos h ls hp
      = dumpAutoskipLoop L fuel (stream.drop n) (maxlen - n) (pos + n)
          (h + 1) n (if h = 0 then pos else hp) := by
  simp only [dumpAutoskipLoop, hn]
  rw [if_neg hne, hz]
  simp

/-- On an exhausted stream the autoskip loop just flushes, for any fuel. -/
lemma autoskip_nil_flush (L fuel maxlen pos h ls hp : Nat) :
    dumpAutoskipLoop L fuel [] maxlen pos h ls hp
      = autoskipflush L h ls hp pos := by
  cases fuel with
  | zero => rfl
  | succ f => exact autoskip_step_stop L f [] maxlen pos h ls hp (by simp)

/-- A run of zero bytes has no nonzero byte. -/
lemma replicate_zero_any (k : Nat) :
    (List.replicate k (0 : Nat)).any (· != 0) = false := by
  induction k with
  | zero => rfl
  | succ n ih => simp [List.replicate_succ, ih]

/-- A `flatMap` of singletons is a `map`. -/
lemma flatMap_singleton_eq_map (l : List Nat) (f : Nat → Event) :
    (l.flatMap fun i => [f i]) = l.map f := by
  induction l with
  | nil => rfl
  | cons a l ih => simp [ih]

/-- With at least one byte per line, `dumpzerolines` renders one zero line
plus the marker when `count > 2`, else `count` individual zero lines. -/
lemma dumpzerolines_eval (L count pos : Nat) (hL : 1 ≤ L) :
    dumpzerolines L count pos
      = if 2 < count then [Event.line (List.replicate L 0) pos, Event.marker]
        else (List.range count).map
          fun i => Event.line (List.replicate L 0) (pos + i * L) := by
  have hd : ∀ p', dumpline (List.replicate L 0) p'
      = [Event.line (List.replicate L 0) p'] := by
    intro p'
    unfold dumpline
    rw [List.length_replicate, if_neg (by omega)]
  unfold dumpzerolines
  by_cases h : 2 < count
  · rw [if_pos h, if_pos h, hd]
    rfl
  · rw [if_neg h, if_neg h]
    simp only [hd]
    exact flatMap_singleton_eq_map _ _

/-- Consuming `K` full-width all-zero chunks while already holding at least
one line: the held count grows by `K`, the hold position is unchanged, and
the last held size becomes the full line width. -/
lemma autoskip_zeros (L : Nat) (hL : 1 ≤ L) :
    ∀ (K fuel : Nat) (rest : List Nat) (maxlen pos h ls hp : Nat),
    1 ≤ h → K * L ≤ maxlen → K * L + rest.length < fuel →
    dumpAutoskipLoop L fuel (List.replicate (K * L) 0 ++ rest) maxlen pos h ls hp
      = dumpAutoskipLoop L (fuel - K) rest (maxlen - K * L) (pos + K * L)
          (h + K) (if K = 0 then ls else L) hp := by
  intro K
  induction K with
  | zero =>
    intro fuel rest maxlen pos h ls hp _ _ _
    simp
  | succ K ih =>
    intro fuel rest maxlen pos h ls hp hh hM hf
    have hmul : (K + 1) * L = K * L + L := by ring
    rw [hmul] at hM hf
    obtain ⟨f, rfl⟩ : ∃ f, fuel = f + 1 := ⟨fuel - 1, by omega⟩
    have hsplit : List.replicate ((K + 1) * L) 0 ++ rest
        = List.replicate L 0 ++ (List.replicate (K * L) 0 ++ rest) := by
      rw [hmul, Nat.add_comm (K * L) L, List.replicate_add, List.append_assoc]
    have hlen : (List.replicate ((K + 1) * L) 0 ++ rest).length
        = K * L + L + rest.length := by
      rw [List.length_append, List.length_replicate, hmul]
    have hn : min L (min maxlen (List.replicate ((K + 1) * L) 0 ++ rest).length)
        = L := by
      rw [hlen]
      omega
    have htake : (List.replicate ((K + 1) * L) 0 ++ rest).take L
        = List.replicate L 0 := by
      rw [hsplit]
      exact List.take_left' (List.length_replicate L 0)
    have hdrop : (List.replicate ((K + 1) * L) 0 ++ rest).drop L
        = List.replicate (K * L) 0 ++ rest := by
      rw [hsplit]
      exact List.drop_left' (List.length_replicate L 0)
    rw [autoskip_step_zero L f _ maxlen pos h ls hp L hn (by omega)
        (by rw [htake]; exact replicate_zero_any L)]
    rw [hdrop, if_neg (by omega)]
    rw [ih f rest (maxlen - L) (pos + L) (h + 1) L hp (by omega) (by omega)
        (by omega)]
    have e1 : f - K = f + 1 - (K + 1) := by omega
    have e2 : maxlen - L - K * L = maxlen - (K + 1) * L := by rw [hmul]; omega
    have e3 : pos + L + K * L = pos + (K + 1) * L := by rw [hmul]; omega
    have e4 : h + 1 + K = h + (K + 1) := by omega
    rw [e1, e2, e3, e4, ite_self, if_neg (Nat.succ_ne_zero K)]

/-- Consuming `K ≥ 1` full-width all-zero chunks starting from the idle
state: the run's start position is recorded and `K` lines are held. -/
lemma autoskip_zeros0 (L : Nat) (hL : 1 ≤ L) (K fuel : Nat) (rest : List Nat)
    (maxlen pos ls : Nat) (hK : 1 ≤ K) (hM : K * L ≤ maxlen)
    (hf : K * L + rest.length < fuel) :
    dumpAutoskipLoop L fuel (List.replicate (K * L) 0 ++ rest) maxlen pos 0 ls pos
      = dumpAutoskipLoop L (fuel - K) rest (maxlen - K * L) (pos + K * L)
          K L pos := by
  obtain ⟨K', rfl⟩ : ∃ K', K = K' + 1 := ⟨K - 1, by omega⟩
  have hmul : (K' + 1) * L = K' * L + L := by ring
  rw [hmul] at hM hf
  obtain ⟨f, rfl⟩ : ∃ f, fuel = f + 1 := ⟨fuel - 1, by omega⟩
  have hsplit : List.replicate ((K' + 1) * L) 0 ++ rest
      = List.replicate L 0 ++ (List.replicate (K' * L) 0 ++ rest) := by
    rw [hmul, Nat.add_comm (K' * L) L, List.replicate_add, List.append_assoc]
  have hlen : (List.replicate ((K' + 1) * L) 0 ++ rest).length
      = K' * L + L + rest.length := by
    rw [List.length_append, List.length_replicate, hmul]
  have hn : min L (min maxlen (List.replicate ((K' + 1) * L) 0 ++ rest).length)
      = L := by
    rw [hlen]
    omega
  have htake : (List.replicate ((K' + 1) * L) 0 ++ rest).take L
      = List.replicate L 0 := by
    rw [hsplit]
    exact List.take_left' (List.length_replicate L 0)
  have hdrop : (List.replicate ((K' + 1) * L) 0 ++ rest).drop L
      = List.replicate (K' * L) 0 ++ rest := by
    rw [hsplit]
    exact List.drop_left' (List.length_replicate L 0)
  rw [autoskip_step_zero L f _ maxlen pos 0 ls pos L hn (by omega)
      (by rw [htake]; exact replicate_zero_any L)]
  rw [hdrop, if_pos rfl]
  rw [autoskip_zeros L hL K' f rest (maxlen - L) (pos + L) 1 L pos (by omega)
      (by omega) (by omega)]
  have e1 : f - K' = f + 1 - (K' + 1) := by omega
  have e2 : maxlen - L - K' * L = maxlen - (K' + 1) * L := by rw [hmul]; omega
  have e3 : pos + L + K' * L = pos + (K' + 1) * L := by rw [hmul]; omega
  have e4 : 1 + K' = K' + 1 := by omega
  rw [e1, e2, e3, e4, ite_self]

/-! ## C1, C2: zero-run elision -/

/-- C1: with autoskip on, a stream of `K ≥ 1` full-width all-zero chunks
followed by a chunk `t` containing a nonzero byte renders as: for `K ≤ 2`
each held chunk individually as a full-width zero line at its own position,
for `K > 2` one full-width zero line at the run's start plus one elision
marker line; then the interrupting chunk at its correct position `K·L`, with
the held-run state reset (nothing further is flushed at end of stream). -/
theorem autoskip_interrupt_flush (L K M : Nat) (t : List Nat)
    (hL : 1 ≤ L) (hK : 1 ≤ K) (ht1 : 1 ≤ t.length) (ht2 : t.length ≤ L)
    (hnz : t.any (· != 0) = true) (hM : K * L + t.length ≤ M) :
    dumpfileswithautoskip L (List.replicate (K * L) 0 ++ t) M 0 =
      (if 2 < K then [Event.line (List.replicate L 0) 0, Event.marker]
       else (List.range K).map fun i => Event.line (List.replicate L 0) (i * L)) ++
      [Event.line t (K * L)] := by
  unfold dumpfileswithautoskip
  have hstreamlen : (List.replicate (K * L) 0 ++ t).length = K * L + t.length := by
    rw [List.length_append, List.length_replicate]
  rw [hstreamlen]
  have hKKL : K ≤ K * L := by
    calc K = K * 1 := by omega
    _ ≤ K * L := Nat.mul_le_mul_left K hL
  rw [autoskip_zeros0 L hL K (K * L + t.length + 1) t M 0 0 hK (by omega) (by omega)]
  obtain ⟨f, hfeq⟩ : ∃ f, K * L + t.length + 1 - K = f + 1 :=
    ⟨K * L + t.length - K, by omega⟩
  rw [hfeq]
  have hn : min L (min (M - K * L) t.length) = t.length := by omega
  rw [autoskip_step_nonzero L f t (M - K * L) (0 + K * L) K L 0 t.length hn
      (by omega) (by rw [List.take_length]; exact hnz)]
  rw [List.take_length, List.drop_length, autoskip_nil_flush]
  have hflush : autoskipflush L 0 L 0 (0 + K * L + t.length) = [] := by
    unfold autoskipflush
    simp
  rw [hflush, if_pos (by omega : K ≠ 0), dumpzerolines_eval L K 0 hL]
  have hline : dumpline t (0 + K * L) = [Event.line t (K * L)] := by
    unfold dumpline
    rw [if_neg (by omega), Nat.zero_add]
  rw [hline]
  simp

/-- Witness for `autoskip_interrupt_flush` at `L = 2`, `K = 3`, `t = [5]`,
`M = 10` (three held zero lines collapse to one line plus a marker, then the
interrupting one-byte line at position 6). -/
theorem autoskip_interrupt_flush_witness :
    (1 ≤ 2 ∧ 1 ≤ 3 ∧ 1 ≤ ([5] : List Nat).length ∧ ([5] : List Nat).length ≤ 2 ∧
      ([5] : List Nat).any (· != 0) = true ∧ 3 * 2 + ([5] : List Nat).length ≤ 10) ∧
    dumpfileswithautoskip 2 (List.replicate (3 * 2) 0 ++ [5]) 10 0 =
      (if 2 < 3 then [Event.line (List.replicate 2 0) 0, Event.marker]
       else (List.range 3).map fun i => Event.line (List.replicate 2 0) (i * 2)) ++
      [Event.line [5] (3 * 2)] :=
  ⟨⟨by decide, by decide, by decide, by decide, by decide, by decide⟩,
   autoskip_interrupt_flush 2 3 10 [5] (by decide) (by decide) (by decide)
     (by decide) (by decide) (by decide)⟩

/-- C2: with autoskip on, when end of stream arrives while `H ≥ 1` all-zero
chunks are held (the last of true length `r`), the coordinator renders
`H - 1` held lines under the collapse rule (one zero line at the run's start
plus a marker if `H - 1 > 2`, else `H - 1` individual lines) and then the
final held chunk explicitly with its true byte count `r` at its true
position `(H - 1)·L`. -/
theorem autoskip_eof_flush (L H r M : Nat)
    (hL : 1 ≤ L) (hH : 1 ≤ H) (hr1 : 1 ≤ r) (hr2 : r ≤ L)
    (hM : (H - 1) * L + r ≤ M) :
    dumpfileswithautoskip L (List.replicate ((H - 1) * L + r) 0) M 0 =
      (if 2 < H - 1 then [Event.line (List.replicate L 0) 0, Event.marker]
       else (List.range (H - 1)).map
         fun i => Event.line (List.replicate L 0) (i * L)) ++
      [Event.line (List.replicate r 0) ((H - 1) * L)] := by
  unfold dumpfileswithautoskip
  rw [List.length_replicate]
  obtain ⟨J, rfl⟩ : ∃ J, H = J + 1 := ⟨H - 1, by omega⟩
  have hJ : J + 1 - 1 = J := by omega
  rw [hJ] at hM ⊢
  have hsplit : List.replicate (J * L + r) (0 : Nat)
      = List.replicate (J * L) 0 ++ List.replicate r 0 := List.replicate_add _ _ _
  have hline : dumpline (List.replicate r 0) (J * L)
      = [Event.line (List.replicate r 0) (J * L)] := by
    unfold dumpline
    rw [List.length_replicate, if_neg (by omega)]
  by_cases hJ0 : J = 0
  · subst hJ0
    simp only [Nat.zero_mul, Nat.zero_add] at hM ⊢
    obtain ⟨f, hfeq⟩ : ∃ f, r + 1 = f + 1 := ⟨r, rfl⟩
    rw [hfeq]
    have hn : min L (min M (List.replicate r (0 : Nat)).length) = r := by
      rw [List.length_replicate]
      omega
    rw [autoskip_step_zero L f (List.replicate r 0) M 0 0 0 0 r hn (by omega)
        (by rw [List.take_replicate, Nat.min_self]; exact replicate_zero_any r)]
    rw [List.drop_replicate, Nat.sub_self, List.replicate_zero, autoskip_nil_flush,
      if_pos rfl]
    unfold autoskipflush
    rw [if_pos (by omega : (0 + 1 : Nat) ≠ 0)]
    have : (0 + 1 - 1 : Nat) = 0 := by omega
    rw [this, dumpzerolines_eval L 0 0 hL]
    have hline0 : dumpline (List.replicate r 0) 0
        = [Event.line (List.replicate r 0) 0] := by
      unfold dumpline
      rw [List.length_replicate, if_neg (by omega)]
    have e0 : (0 + r - r : Nat) = 0 := by omega
    rw [e0, hline0]
    simp
  · rw [hsplit]
    have hKKL : J ≤ J * L := by
      calc J = J * 1 := by omega
      _ ≤ J * L := Nat.mul_le_mul_left J hL
    rw [autoskip_zeros0 L hL J (J * L + r + 1) (List.replicate r 0) M 0 0
        (by omega) (by omega) (by rw [List.length_replicate]; omega)]
    obtain ⟨f, hfeq⟩ : ∃ f, J * L + r + 1 - J = f + 1 := ⟨J * L + r - J, by omega⟩
    rw [hfeq]
    have hn : min L (min (M - J * L) (List.replicate r (0 : Nat)).length) = r := by
      rw [List.length_replicate]
      omega
    rw [autoskip_step_zero L f (List.replicate r 0) (M - J * L) (0 + J * L) J L 0
        r hn (by omega)
        (by rw [List.take_replicate, Nat.min_self]; exact replicate_zero_any r)]
    rw [List.drop_replicate, Nat.sub_self, List.replicate_zero, autoskip_nil_flush,
      if_neg hJ0]
    unfold autoskipflush
    rw [if_pos (by omega : J + 1 ≠ 0)]
    have e1 : (J + 1 - 1 : Nat) = J := by omega
    have e2 : 0 + J * L + r - r = J * L := by omega
    rw [e1, e2, dumpzerolines_eval L J 0 hL, hline]
    simp

/-- Witness for `autoskip_eof_flush` at the spec's concrete example:
`L = 16`, `H = 4`, `r = 4` (a 16×3+4-byte all-zero stream renders as one
zero line, one marker line, and one 4-byte zero line at position 48). -/
theorem autoskip_eof_flush_witness :
    (1 ≤ 16 ∧ 1 ≤ 4 ∧ 1 ≤ 4 ∧ 4 ≤ 16 ∧ (4 - 1) * 16 + 4 ≤ 100) ∧
    dumpfileswithautoskip 16 (List.replicate ((4 - 1) * 16 + 4) 0) 100 0 =
      (if 2 < 4 - 1 then [Event.line (List.replicate 16 0) 0, Event.marker]
       else (List.range (4 - 1)).map
         fun i => Event.line (List.replicate 16 0) (i * 16)) ++
      [Event.line (List.replicate 4 0) ((4 - 1) * 16)] :=
  ⟨⟨by decide, by decide, by decide, by decide, by decide⟩,
   autoskip_eof_flush 16 4 4 100 (by decide) (by decide) (by decide) (by decide)
     (by decide)⟩

/-! ## C3: the dump driver renders exactly the selected byte range -/

/-- `renderedBytes` distributes over event concatenation. -/
lemma renderedBytes_append : ∀ a b : List Event,
    renderedBytes (a ++ b) = renderedBytes a ++ renderedBytes b := by
  intro a
  induction a with
  | nil => intro b; rfl
  | cons e a ih =>
    intro b
    cases e with
    | line buf pos => simp [renderedBytes, ih]
    | marker => simp [renderedBytes, ih]

/-- The non-autoskip loop renders exactly the first `maxlen` bytes of the
remaining stream. -/
lemma dumpfilesLoop_bytes (L : Nat) (hL : 1 ≤ L) :
    ∀ (fuel : Nat) (stream : List Nat) (maxlen pos : Nat),
    stream.length < fuel →
    renderedBytes (dumpfilesLoop L fuel stream maxlen pos) = stream.take maxlen := by
  intro fuel
  induction fuel with
  | zero =>
    intro stream maxlen pos hf
    exact absurd hf (Nat.not_lt_zero _)
  | succ f ih =>
    intro stream maxlen pos hf
    by_cases hn : min L (min maxlen stream.length) = 0
    · have : dumpfilesLoop L (f + 1) stream maxlen pos = [] := by
        simp only [dumpfilesLoop, hn, if_pos]
      rw [this]
      have : maxlen = 0 ∨ stream.length = 0 := by omega
      rcases this with h | h
      · rw [h, List.take_zero]; rfl
      · rw [List.length_eq_zero.mp h]; simp [renderedBytes]
    · have hstep : dumpfilesLoop L (f + 1) stream maxlen pos
          = dumpline (stream.take (min L (min maxlen stream.length))) pos ++
              dumpfilesLoop L f (stream.drop (min L (min maxlen stream.length)))
                (maxlen - min L (min maxlen stream.length))
                (pos + min L (min maxlen stream.length)) := by
        simp only [dumpfilesLoop]
        rw [if_neg hn]
      rw [hstep, renderedBytes_append]
      have hlen : (stream.take (min L (min maxlen stream.length))).length
          = min L (min maxlen stream.length) := by
        rw [List.length_take]
        omega
      have hdl : dumpline (stream.take (min L (min maxlen stream.length))) pos
          = [Event.line (stream.take (min L (min maxlen stream.length))) pos] := by
        unfold dumpline
        rw [hlen, if_neg hn]
      rw [hdl]
      have hrec := ih (stream.drop (min L (min maxlen stream.length)))
        (maxlen - min L (min maxlen stream.length))
        (pos + min L (min maxlen stream.length))
        (by rw [List.length_drop]; omega)
      have hsingle : renderedBytes
          [Event.line (stream.take (min L (min maxlen stream.length))) pos]
          = stream.take (min L (min maxlen stream.length)) := by
        simp [renderedBytes]
      rw [hsingle, hrec, ← List.take_add]
      congr 1
      omega

/-- C3: for every stream, start offset `S` and length limit `M`, the bytes
rendered by the (non-autoskip) dump driver are exactly the half-open range
`[S, S+M)` of the logical stream, clamped to its length; and if end of
stream occurs while skipping the first `S` bytes, the driver stops with no
output. -/
theorem dump_range_exact (L S M : Nat) (stream : List Nat) (hL : 1 ≤ L) :
    renderedBytes (dump false L S M stream) = (stream.drop S).take M ∧
    (stream.length < S → dump false L S M stream = []) := by
  constructor
  · unfold dump
    by_cases h : stream.length < S
    · rw [if_pos h]
      have hnil : stream.drop S = [] := List.drop_eq_nil_of_le (by omega)
      rw [hnil]
      simp [renderedBytes]
    · rw [if_neg h]
      show renderedBytes (dumpfiles L (stream.drop S) M S) = (stream.drop S).take M
      unfold dumpfiles
      exact dumpfilesLoop_bytes L hL _ (stream.drop S) M S (by omega)
  · intro h
    unfold dump
    rw [if_pos h]

/-- Witness for `dump_range_exact` at `L = 4`, `S = 2`, `M = 5` on a
10-byte stream, and at `S = 11` on a shorter stream. -/
theorem dump_range_exact_witness :
    ((1 : Nat) ≤ 4 ∧ ([1, 2, 3] : List Nat).length < 11) ∧
    renderedBytes (dump false 4 2 5 [1, 2, 3, 4, 5, 6, 7, 8, 9, 10])
      = (([1, 2, 3, 4, 5, 6, 7, 8, 9, 10] : List Nat).drop 2).take 5 ∧
    dump false 4 11 5 [1, 2, 3] = [] :=
  ⟨⟨by decide, by decide⟩,
   (dump_range_exact 4 2 5 [1, 2, 3, 4, 5, 6, 7, 8, 9, 10] (by decide)).1,
   (dump_range_exact 4 11 5 [1, 2, 3] (by decide)).2 (by decide)⟩

/-! ## C4: multiple inputs are pure concatenation -/

/-- `nextbyte` returns `EOF` exactly when all inputs are exhausted. -/
lemma nextbyte_none : ∀ src : List (List Nat),
    nextbyte src = none → src.flatten = [] := by
  intro src
  induction src with
  | nil => intro _; rfl
  | cons head rest ih =>
    intro h
    cases head with
    | nil =>
      rw [List.flatten_cons, List.nil_append]
      exact ih h
    | cons b bs => exact absurd h (by simp [nextbyte])

/-- A byte delivered by `nextbyte` is the head of the flattened stream. -/
lemma nextbyte_some : ∀ (src : List (List Nat)) (b : Nat) (src' : List (List Nat)),
    nextbyte src = some (b, src') → src.flatten = b :: src'.flatten := by
  intro src
  induction src with
  | nil => intro b src' h; exact absurd h (by simp [nextbyte])
  | cons head rest ih =>
    intro b src' h
    cases head with
    | nil =>
      rw [List.flatten_cons, List.nil_append]
      exact ih b src' h
    | cons c cs =>
      have : c = b ∧ cs :: rest = src' := by
        simpa [nextbyte] using h
      obtain ⟨rfl, rfl⟩ := this
      simp

/-- `readchunk k` takes the first `k` bytes of the flattened stream and
leaves the rest. -/
lemma readchunk_spec : ∀ (k : Nat) (src : List (List Nat)),
    (readchunk k src).1 = src.flatten.take k ∧
    (readchunk k src).2.flatten = src.flatten.drop k := by
  intro k
  induction k with
  | zero => intro src; exact ⟨rfl, rfl⟩
  | succ k ih =>
    intro src
    cases hnb : nextbyte src with
    | none =>
      have hflat : src.flatten = [] := nextbyte_none src hnb
      constructor
      · show (readchunk (k + 1) src).1 = src.flatten.take (k + 1)
        simp [readchunk, hnb, hflat]
      · show (readchunk (k + 1) src).2.flatten = src.flatten.drop (k + 1)
        simp [readchunk, hnb, hflat]
    | some val =>
      obtain ⟨b, src'⟩ := val
      have hflat : src.flatten = b :: src'.flatten := nextbyte_some src b src' hnb
      obtain ⟨ih1, ih2⟩ := ih src'
      constructor
      · show (readchunk (k + 1) src).1 = src.flatten.take (k + 1)
        simp [readchunk, hnb, hflat, ih1]
      · show (readchunk (k + 1) src).2.flatten = src.flatten.drop (k + 1)
        simp [readchunk, hnb, hflat, ih2]

/-- Taking up to the list's length is the same as plain taking. -/
lemma take_min_length {α : Type} (l : List α) (k : Nat) :
    l.take (min k l.length) = l.take k := by
  by_cases h : k ≤ l.length
  · rw [min_eq_left h]
  · rw [min_eq_right (by omega), List.take_length,
      List.take_of_length_le (by omega)]

/-- Dropping up to the list's length is the same as plain dropping. -/
lemma drop_min_length {α : Type} (l : List α) (k : Nat) :
    l.drop (min k l.length) = l.drop k := by
  by_cases h : k ≤ l.length
  · rw [min_eq_left h]
  · rw [min_eq_right (by omega), List.drop_length,
      List.drop_eq_nil_of_le (by omega)]

/-- The multi-input dump loop behaves exactly like the single-stream loop on
the flattened input. -/
lemma dumpfilesMultiLoop_flat (L : Nat) : ∀ (fuel : Nat)
    (src : List (List Nat)) (maxlen pos : Nat),
    dumpfilesMultiLoop L fuel src maxlen pos
      = dumpfilesLoop L fuel src.flatten maxlen pos := by
  intro fuel
  induction fuel with
  | zero => intro src maxlen pos; rfl
  | succ f ih =>
    intro src maxlen pos
    obtain ⟨h1, h2⟩ := readchunk_spec (min L maxlen) src
    have hchunk : (readchunk (min L maxlen) src).1
        = src.flatten.take (min L (min maxlen src.flatten.length)) := by
      rw [h1, ← take_min_length src.flatten (min L maxlen)]
      congr 1
      omega
    have hlen : (readchunk (min L maxlen) src).1.length
        = min L (min maxlen src.flatten.length) := by
      rw [h1, List.length_take]
      omega
    have hdrop : (readchunk (min L maxlen) src).2.flatten
        = src.flatten.drop (min L (min maxlen src.flatten.length)) := by
      rw [h2, ← drop_min_length src.flatten (min L maxlen)]
      congr 1
      omega
    by_cases hn : min L (min maxlen src.flatten.length) = 0
    · show (if (readchunk (min L maxlen) src).1.length = 0 then []
            else _) = dumpfilesLoop L (f + 1) src.flatten maxlen pos
      rw [if_pos (by rw [hlen]; exact hn)]
      simp only [dumpfilesLoop, hn, if_pos]
    · show (if (readchunk (min L maxlen) src).1.length = 0 then []
            else dumpline (readchunk (min L maxlen) src).1 pos ++
              dumpfilesMultiLoop L f (readchunk (min L maxlen) src).2
                (maxlen - (readchunk (min L maxlen) src).1.length)
                (pos + (readchunk (min L maxlen) src).1.length))
          = dumpfilesLoop L (f + 1) src.flatten maxlen pos
      rw [if_neg (by rw [hlen]; exact hn)]
      have hrhs : dumpfilesLoop L (f + 1) src.flatten maxlen pos
          = dumpline (src.flatten.take (min L (min maxlen src.flatten.length))) pos ++
              dumpfilesLoop L f
                (src.flatten.drop (min L (min maxlen src.flatten.length)))
                (maxlen - min L (min maxlen src.flatten.length))
                (pos + min L (min maxlen src.flatten.length)) := by
        simp only [dumpfilesLoop]
        rw [if_neg hn]
      rw [hrhs, ih, hlen, hchunk, hdrop]

/-- `skipbytes` fails exactly when the flattened stream is shorter than the
requested skip. -/
lemma skipbytes_none : ∀ (k : Nat) (src : List (List Nat)),
    skipbytes k src = none ↔ src.flatten.length < k := by
  intro k
  induction k with
  | zero =>
    intro src
    simp [skipbytes]
  | succ k ih =>
    intro src
    cases hnb : nextbyte src with
    | none =>
      have hflat : src.flatten = [] := nextbyte_none src hnb
      simp [skipbytes, hnb, hflat]
    | some val =>
      obtain ⟨b, src'⟩ := val
      have hflat : src.flatten = b :: src'.flatten := nextbyte_some src b src' hnb
      show skipbytes (k + 1) src = none ↔ src.flatten.length < k + 1
      rw [hflat]
      simp [skipbytes, hnb, ih src']

/-- A successful `skipbytes` drops exactly `k` bytes of the flattened
stream. -/
lemma skipbytes_some : ∀ (k : Nat) (src src' : List (List Nat)),
    skipbytes k src = some src' → src'.flatten = src.flatten.drop k := by
  intro k
  induction k with
  | zero =>
    intro src src' h
    have : src = src' := by simpa [skipbytes] using h
    rw [← this]
    rfl
  | succ k ih =>
    intro src src' h
    cases hnb : nextbyte src with
    | none => rw [skipbytes, hnb] at h; exact absurd h (by simp)
    | some val =>
      obtain ⟨b, src''⟩ := val
      have hflat : src.flatten = b :: src''.flatten := nextbyte_some src b src'' hnb
      rw [skipbytes, hnb] at h
      rw [ih src'' src' h, hflat]
      rfl

/-- C4: with autoskip disabled and any fixed configuration, dumping a list
of inputs produces exactly the same output as dumping the single input whose
content is the byte-wise concatenation of their contents. -/
theorem dump_concat_inputs (L S M : Nat) (srcs : List (List Nat)) :
    dumpinputs L S M srcs = dumpinputs L S M [srcs.flatten] := by
  have hflat : ([srcs.flatten] : List (List Nat)).flatten = srcs.flatten := by simp
  unfold dumpinputs
  cases h1 : skipbytes S srcs with
  | none =>
    have hlong : srcs.flatten.length < S := (skipbytes_none S srcs).mp h1
    have h2 : skipbytes S [srcs.flatten] = none :=
      (skipbytes_none S [srcs.flatten]).mpr (by rw [hflat]; exact hlong)
    rw [h2]
  | some src' =>
    have hnone : ¬ srcs.flatten.length < S := by
      intro hlt
      have := (skipbytes_none S srcs).mpr hlt
      rw [h1] at this
      exact absurd this (by simp)
    cases h2 : skipbytes S [srcs.flatten] with
    | none =>
      exfalso
      have := (skipbytes_none S [srcs.flatten]).mp h2
      rw [hflat] at this
      exact hnone this
    | some src'' =>
      have e1 : src'.flatten = srcs.flatten.drop S := skipbytes_some S srcs src' h1
      have e2 : src''.flatten = srcs.flatten.drop S := by
        rw [skipbytes_some S [srcs.flatten] src'' h2, hflat]
      show dumpfilesMultiLoop L (src'.flatten.length + 1) src' M S
        = dumpfilesMultiLoop L (src''.flatten.length + 1) src'' M S
      rw [dumpfilesMultiLoop_flat, dumpfilesMultiLoop_flat, e1, e2]

/-! ## C7: column alignment of the hex dump -/

/-- Rounding up to the next multiple: `(i + g - 1) / g` adds one to `i / g`
exactly when `g` does not divide `i`. -/
lemma ceil_div_step (g i : Nat) (hg : 1 ≤ g) :
    (i + g - 1) / g = i / g + (if i % g = 0 then 0 else 1) := by
  cases i with
  | zero =>
    rw [Nat.zero_add, Nat.zero_mod, if_pos rfl, Nat.zero_div, Nat.zero_add]
    exact Nat.div_eq_of_lt (by omega)
  | succ m =>
    have he : m + 1 + g - 1 = m + g := by omega
    rw [he, Nat.add_div_right m hg, Nat.succ_div]
    by_cases hd : g ∣ m + 1
    · rw [if_pos hd, if_pos (Nat.dvd_iff_mod_eq_zero.mp hd)]
    · rw [if_neg hd,
        if_neg (fun hmod => hd (Nat.dvd_iff_mod_eq_zero.mpr hmod))]

/-- Closed form of the group-separator count: summed with the ceiling at the
start index, it gives the ceiling at the end index. -/
lemma groupspaces_closed_aux (g : Nat) (hg : 1 ≤ g) :
    ∀ (n i : Nat), groupspaces g i n + (i + g - 1) / g = (i + n + g - 1) / g := by
  intro n
  induction n with
  | zero =>
    intro i
    rw [groupspaces, Nat.zero_add, Nat.add_zero]
  | succ n ih =>
    intro i
    have h3 := ih (i + 1)
    have h1 := ceil_div_step g i hg
    have h2 : (i + 1 + g - 1) / g = i / g + 1 := by
      have he : i + 1 + g - 1 = i + g := by omega
      rw [he]
      exact Nat.add_div_right i hg
    have h5 : i + 1 + n + g - 1 = i + (n + 1) + g - 1 := by omega
    rw [h2, h5] at h3
    rw [groupspaces, h1, ← h3]
    generalize groupspaces g (i + 1) n = G
    by_cases hi : i % g = 0
    · rw [if_pos hi, if_pos hi]
      omega
    · rw [if_neg hi, if_neg hi]
      omega

/-- The hex column for `n` bytes contains `⌈n / g⌉` group-separator
spaces. -/
lemma groupspaces_closed (g n : Nat) (hg : 1 ≤ g) :
    groupspaces g 0 n = (n + g - 1) / g := by
  have h := groupspaces_closed_aux g hg n 0
  have h0 : (0 + g - 1) / g = 0 := Nat.div_eq_of_lt (by omega)
  rw [h0, Nat.add_zero, Nat.zero_add] at h
  exact h

/-- Length of the hex cells: two digits per byte plus the group spaces. -/
lemma hexcells_length : ∀ (bs : List Nat) (g i : Nat),
    (hexcells g i bs).length = 2 * bs.length + groupspaces g i bs.length := by
  intro bs
  induction bs with
  | nil => intro g i; rfl
  | cons b bs ih =>
    intro g i
    have hgs : groupspaces g i (b :: bs).length
        = (if i % g = 0 then 1 else 0) + groupspaces g (i + 1) bs.length := by
      rw [List.length_cons]
      rfl
    have hhb : (hexbyte b).length = 2 := rfl
    rw [hexcells, hgs]
    by_cases hi : i % g = 0
    · rw [if_pos hi, if_pos hi]
      simp only [List.length_append, List.length_cons, List.length_nil,
        ih g (i + 1), hhb]
      generalize groupspaces g (i + 1) bs.length = G
      omega
    · rw [if_neg hi, if_neg hi]
      simp only [List.length_append, List.length_cons, List.length_nil,
        ih g (i + 1), hhb]
      generalize groupspaces g (i + 1) bs.length = G
      omega

/-- The `%08X` label always prints eight characters. -/
lemma hex8_length (pos : Nat) : (hex8 pos).length = 8 := by
  rw [hex8, List.length_map, List.length_range]

/-- The hex column (digits, group spaces, `%*s` padding) of the uncolored
renderer always occupies `hexwidth` characters, so the glyph column starts
at the fixed offset `11 + hexwidth` on every line. -/
lemma linelead_length (L g : Nat) (buf : List Nat) (pos : Nat)
    (hg : 1 ≤ g) (hn : buf.length ≤ L) :
    (linelead L g buf pos).length = 11 + hexwidth L g := by
  have hgs : groupspaces g 0 buf.length = (buf.length + g - 1) / g :=
    groupspaces_closed g buf.length hg
  have hmono : (buf.length + g - 1) / g ≤ (L + g - 1) / g :=
    Nat.div_le_div_right (by omega)
  have hle : 2 * buf.length + groupspaces g 0 buf.length ≤ hexwidth L g := by
    rw [hgs]
    unfold hexwidth
    omega
  set W := hexwidth L g with hW
  set G := groupspaces g 0 buf.length with hG
  have hpadeq : padfield L g buf.length
      = (W : Int) - 2 * buf.length - G := by
    unfold padfield
    rw [← hW, ← hG]
  have hpad : (padfield L g buf.length).natAbs = W - 2 * buf.length - G := by
    rw [hpadeq]
    omega
  rw [linelead]
  simp only [List.length_append, List.length_cons, hex8_length,
    List.length_replicate, hexcells_length, List.length_nil]
  rw [hpad, ← hG]
  omega

/-- The visible projection drops nothing from plain characters. -/
lemma visible_append (a b : List OutItem) :
    visible (a ++ b) = visible a ++ visible b := by
  unfold visible
  rw [List.filterMap_append]

/-- Nothing is visible in an empty output. -/
lemma visible_nil : visible [] = [] := rfl

/-- Color-set items are invisible. -/
lemma visible_cons_setcolor (c : Nat) (l : List OutItem) :
    visible (OutItem.setcolor c :: l) = visible l := rfl

/-- Reset items are invisible. -/
lemma visible_cons_reset (l : List OutItem) :
    visible (OutItem.reset :: l) = visible l := rfl

/-- A plain character is visible. -/
lemma visible_cons_chr (b : Nat) (l : List OutItem) :
    visible (OutItem.chr b :: l) = b :: visible l := rfl

/-- Lifting bytes to items and projecting back is the identity. -/
lemma visible_map_chr (l : List Nat) : visible (l.map OutItem.chr) = l := by
  induction l with
  | nil => rfl
  | cons b l ih => rw [List.map_cons, visible_cons_chr, ih]

/-- Invisible-aware length of a run of padding spaces. -/
lemma visible_replicate_chr (k b : Nat) :
    visible (List.replicate k (OutItem.chr b)) = List.replicate k b := by
  induction k with
  | zero => rfl
  | succ n ih => rw [List.replicate_succ, visible_cons_chr, ih, List.replicate_succ]

/-- The colored hex column prints the same visible characters as the
uncolored one. -/
lemma visible_renderhexcolored (g : Nat) : ∀ (bs : List Nat) (i : Nat) (s : PalState),
    visible (renderhexcolored g i bs s) = hexcells g i bs := by
  intro bs
  induction bs with
  | nil => intro i s; rfl
  | cons b bs ih =>
    intro i s
    rw [renderhexcolored, hexcells]
    by_cases hi : i % g = 0
    · rw [if_pos hi, if_pos hi]
      simp [visible_append, visible_cons_chr, visible_cons_setcolor,
        visible_map_chr, ih]
    · rw [if_neg hi, if_neg hi]
      simp [visible_append, visible_cons_chr, visible_cons_setcolor,
        visible_map_chr, ih]

/-- The colored glyph column prints the same visible characters as the
uncolored one. -/
lemma visible_renderglyphscolored (uni : Bool) : ∀ (bs : List Nat) (s : PalState),
    visible (renderglyphscolored uni bs s) = bs.flatMap (getbyterepresentation uni) := by
  intro bs
  induction bs with
  | nil => intro s; rfl
  | cons b bs ih =>
    intro s
    rw [renderglyphscolored]
    simp [visible_append, visible_cons_setcolor, visible_map_chr, ih]

/-- The colored line renderer prints exactly the visible characters of the
uncolored renderer: the color and reset sequences occupy no columns. -/
lemma visible_renderlinecolored (L g : Nat) (uni : Bool) (buf : List Nat)
    (pos : Nat) (s : PalState) :
    visible (renderlinecolored L g uni buf pos s).1
      = renderlineuncolored L g uni buf pos := by
  show visible (OutItem.reset :: (hex8 pos).map OutItem.chr ++ OutItem.chr 58 ::
      renderhexcolored g 0 buf s ++
      OutItem.reset ::
        List.replicate (padfield L g buf.length).natAbs (OutItem.chr 32) ++
      OutItem.chr 32 :: OutItem.chr 32 ::
      renderglyphscolored uni buf (processPal s buf) ++
      [OutItem.reset, OutItem.chr 10])
    = renderlineuncolored L g uni buf pos
  unfold renderlineuncolored linelead
  simp [visible_append, visible_cons_chr, visible_cons_setcolor,
    visible_cons_reset, visible_map_chr, visible_replicate_chr,
    visible_renderhexcolored, visible_renderglyphscolored, visible_nil]

/-- C7 (amended): for `1 ≤ n ≤ line_width` the `%*s` padding field plus the
`⌈n / group_size⌉` group-separator spaces together measure
`hex_column_width − 2×n`, so the hex column always occupies `hexwidth`
characters and the glyph column starts at the fixed horizontal offset
`11 + hexwidth` (9 label characters plus the two fixed spaces), in both the
uncolored and the colored renderer (whose control sequences occupy no
columns). -/
theorem glyph_column_alignment (L g : Nat) (uni : Bool) (buf : List Nat)
    (pos : Nat) (s : PalState) (hg : 1 ≤ g) (h1 : 1 ≤ buf.length)
    (h2 : buf.length ≤ L) :
    (padfield L g buf.length).natAbs + groupspaces g 0 buf.length
        + 2 * buf.length = hexwidth L g ∧
    renderlineuncolored L g uni buf pos
      = linelead L g buf pos ++ buf.flatMap (getbyterepresentation uni) ++ [10] ∧
    (linelead L g buf pos).length = 11 + hexwidth L g ∧
    visible (renderlinecolored L g uni buf pos s).1
      = renderlineuncolored L g uni buf pos := by
  have hgs : groupspaces g 0 buf.length = (buf.length + g - 1) / g :=
    groupspaces_closed g buf.length hg
  have hmono : (buf.length + g - 1) / g ≤ (L + g - 1) / g :=
    Nat.div_le_div_right (by omega)
  have hle : 2 * buf.length + groupspaces g 0 buf.length ≤ hexwidth L g := by
    rw [hgs]
    unfold hexwidth
    omega
  refine ⟨?_, ?_, linelead_length L g buf pos hg h2,
    visible_renderlinecolored L g uni buf pos s⟩
  · set W := hexwidth L g with hW
    set G := groupspaces g 0 buf.length with hG
    have hpadeq : padfield L g buf.length
        = (W : Int) - 2 * buf.length - G := by
      unfold padfield
      rw [← hW, ← hG]
    have hpad : (padfield L g buf.length).natAbs = W - 2 * buf.length - G := by
      rw [hpadeq]
      omega
    rw [hpad]
    omega
  · unfold renderlineuncolored
    rw [List.append_assoc]

/-- Witness for `glyph_column_alignment` at the spec's example: a 5-byte
line with `line_width = 16`, `group_size = 2` has its glyph column at the
same offset `11 + 40 = 51` as a full 16-byte line. -/
theorem glyph_column_alignment_witness :
    ((1 : Nat) ≤ 2 ∧ 1 ≤ ([0, 1, 2, 3, 4] : List Nat).length ∧
      ([0, 1, 2, 3, 4] : List Nat).length ≤ 16) ∧
    ((padfield 16 2 ([0, 1, 2, 3, 4] : List Nat).length).natAbs
        + groupspaces 2 0 ([0, 1, 2, 3, 4] : List Nat).length
        + 2 * ([0, 1, 2, 3, 4] : List Nat).length = hexwidth 16 2 ∧
      renderlineuncolored 16 2 true [0, 1, 2, 3, 4] 0
        = linelead 16 2 [0, 1, 2, 3, 4] 0 ++
            ([0, 1, 2, 3, 4] : List Nat).flatMap (getbyterepresentation true) ++
            [10] ∧
      (linelead 16 2 [0, 1, 2, 3, 4] 0).length = 11 + hexwidth 16 2 ∧
      visible (renderlinecolored 16 2 true [0, 1, 2, 3, 4] 0 initPal).1
        = renderlineuncolored 16 2 true [0, 1, 2, 3, 4] 0) :=
  ⟨⟨by decide, by decide, by decide⟩,
   glyph_column_alignment 16 2 true [0, 1, 2, 3, 4] 0 initPal (by decide)
     (by decide) (by decide)⟩

end Xcd
